import Mathlib

/-!
Shallow embedding of the canonical-Huffman decoding core in `src/src/prefix.rs`
(crate `gzip`): the bit-code accumulator `Code`, the decode-tree `Node` and
`PrefixTree` with `from_lengths` and `walk`, together with an exact model of
the Rust standard library `BinaryHeap` operations (`sift_up`,
`sift_down_to_bottom`, `push`, `pop`) that `from_lengths` relies on, since the
shape of the constructed tree depends on the precise pop order of that heap.

Machine integers are modelled as `Nat` with explicit reduction modulo `2 ^ 32`
(`u32`) and `2 ^ 8` (`u8`) at the operations where Rust release builds wrap;
`saturating_add` is modelled with `min`.  A Rust panic (the `unwrap()` calls
on a possibly empty heap inside `collect_from_heap`) is modelled by `Option`:
`none` means the construction panics.  The diagnostic `eprintln!` side effects
carry no data and are dropped.
-/

namespace Gzip

/-- Numeric bound of `u32` arithmetic: `2 ^ 32`. -/
def U32 : Nat := 4294967296

/-- Numeric bound of `u8` arithmetic: `2 ^ 8`. -/
def U8 : Nat := 256

/-- Model of `u32::saturating_add` on `Nat` values below `U32`. -/
def satAdd (a b : Nat) : Nat := min (a + b) (U32 - 1)

/-- The struct `Code` of `prefix.rs`: a `u32` bit buffer plus a `u8` length
saying how many of the low bits belong to the code. -/
structure Code where
  buffer : Nat
  length : Nat
deriving DecidableEq, Repr

/-- The method `Code::new`. -/
def Code.new : Code := { buffer := 0, length := 0 }

/-- The method `Code::from` (named `fromParts` because `Code.from` collides
with reserved syntax): wraps a buffer and a length verbatim. -/
def Code.fromParts (buffer : Nat) (length : Nat) : Code :=
  { buffer := buffer, length := length }

/-- The method `Code::push`: `self.buffer = (self.buffer << length) | buffer;
self.length += length`, with `u32` and `u8` wrapping made explicit. -/
def Code.push (self : Code) (buffer : Nat) (length : Nat) : Code :=
  { buffer := (self.buffer <<< length ||| buffer) % U32
    length := (self.length + length) % U8 }

/-- The method `Code::push_bit`: the argument is normalized by
`match bit { 0 => 0, 1 => 1, _ => 1 }` (the wildcard arm also emits a
non-fatal diagnostic, dropped here), then pushed as one bit. -/
def Code.push_bit (self : Code) (bit : Nat) : Code :=
  let normalized_bit : Nat := if bit = 0 then 0 else 1
  { buffer := (self.buffer <<< 1 ||| normalized_bit) % U32
    length := (self.length + 1) % U8 }

/-- The struct `Node` of `prefix.rs`.  The Rust fields `left` and `right` have
type `Option<Box<Node>>`; boxing is identity in the embedding. -/
inductive Node where
  | mk (value : Option Nat) (significance : Nat) (code : Code)
      (left : Option Node) (right : Option Node)

/-- Field accessor for `Node.value`. -/
def Node.value : Node → Option Nat
  | .mk v _ _ _ _ => v

/-- Field accessor for `Node.significance`. -/
def Node.significance : Node → Nat
  | .mk _ s _ _ _ => s

/-- Field accessor for `Node.code`. -/
def Node.code : Node → Code
  | .mk _ _ c _ _ => c

/-- Field accessor for `Node.left`. -/
def Node.left : Node → Option Node
  | .mk _ _ _ l _ => l

/-- Field accessor for `Node.right`. -/
def Node.right : Node → Option Node
  | .mk _ _ _ _ r => r

/-- The method `Node::new`: all fields default. -/
def Node.new : Node := .mk none 0 Code.new none none

/-! ### Exact model of `std::collections::BinaryHeap<Box<Node>>`

`impl Ord for Node` compares by `significance` alone, so the heap is a
max-heap keyed by `significance`.  The array is modelled as a `List Node`;
out-of-range reads return `Node.new` (they cannot occur at the call sites,
where indices are guarded by length comparisons exactly as in the Rust
source).  The standard library `Hole` construction is an optimization of a
swap loop that produces the same final array, so the model uses swaps.
Loops are driven by a fuel argument that provably dominates the iteration
count (`sift_up` strictly decreases `pos`, the descent of
`sift_down_to_bottom` strictly increases `pos` below `len`, and the
`collect_from_heap` loop strictly decreases the heap size), keeping every
function structurally recursive and kernel-computable. -/

/-- Array read `data[i]`, total with default `Node.new`. -/
def getN (a : List Node) (i : Nat) : Node := a.getD i Node.new

/-- Swap of two array positions. -/
def swapN (a : List Node) (i j : Nat) : List Node :=
  (a.set i (getN a j)).set j (getN a i)

/-- The loop of `BinaryHeap::sift_up(start, pos)`: while `pos > start`, stop
if `data[pos] <= data[parent]`, else swap with `parent = (pos - 1) / 2` and
continue there.  `fuel` only needs to exceed the number of iterations, which
is at most `pos` since `pos` strictly decreases. -/
def siftUpAux : Nat → List Node → Nat → Nat → List Node
  | 0, a, _, _ => a
  | fuel + 1, a, start, pos =>
    if pos ≤ start then a
    else
      let parent := (pos - 1) / 2
      if (getN a pos).significance ≤ (getN a parent).significance then a
      else siftUpAux fuel (swapN a pos parent) start parent

/-- `BinaryHeap::sift_up(start, pos)` with sufficient fuel. -/
def sift_up (a : List Node) (start pos : Nat) : List Node :=
  siftUpAux (pos + 1) a start pos

/-- The descent loop of `BinaryHeap::sift_down_to_bottom`: while
`child <= end - 2` (saturating), move to the greater child (the right child
when the two compare `left <= right`), unconditionally.  Returns the array
and the final position.  `pos` strictly increases and stays below the
length, so `fuel = a.length` dominates the iteration count. -/
def siftDownAux : Nat → List Node → Nat → List Node × Nat
  | 0, a, pos => (a, pos)
  | fuel + 1, a, pos =>
    let child := 2 * pos + 1
    if child ≤ a.length - 2 then
      let child :=
        if (getN a child).significance ≤ (getN a (child + 1)).significance
        then child + 1 else child
      siftDownAux fuel (swapN a pos child) child
    else (a, pos)

/-- `BinaryHeap::sift_down_to_bottom(pos)`: descend to the bottom along the
greater children, take the final single left child if there is one, then
`sift_up(start, pos)` from there. -/
def sift_down_to_bottom (a : List Node) (pos : Nat) : List Node :=
  let start := pos
  let d := siftDownAux a.length a pos
  let child := 2 * d.2 + 1
  if child = d.1.length - 1 then
    sift_up (swapN d.1 d.2 child) start child
  else
    sift_up d.1 start d.2

/-- `BinaryHeap::push`: append, then `sift_up(0, old_len)`. -/
def heap_push (a : List Node) (x : Node) : List Node :=
  sift_up (a ++ [x]) 0 a.length

/-- `BinaryHeap::pop`: remove the last array element; if the heap is still
nonempty, swap it with the root and `sift_down_to_bottom(0)`.  Returns the
extracted maximum and the remaining heap, or `none` on an empty heap. -/
def heap_pop (a : List Node) : Option (Node × List Node) :=
  match a.getLast? with
  | none => none
  | some last =>
    let rest := a.dropLast
    if rest.isEmpty then some (last, [])
    else some (getN rest 0, sift_down_to_bottom (rest.set 0 last) 0)

/-! ### `PrefixTree::from_lengths` -/

/-- Modelled from the spec: the crate module `bitstream` (not part of the
sources here) provides the trait method `BitIndex::bit_index`, which the spec
describes as an external utility that, "given an unsigned value and a bit
index, returns that single bit (0 or 1)". -/
def bit_index (value : Nat) (i : Nat) : Nat := (value >>> i) % 2

/-- The local `occurances` array of `from_lengths` after the histogram fold:
a `[0u32; 256]` array where every entry indexed by a code length is bumped
with `saturating_add(1)`.  (Indices are `u8` values, hence always in range
in Rust; out-of-range `set` is a no-op in the model.) -/
def occurancesOf (code_lengths : List Nat) : List Nat :=
  code_lengths.foldl (fun acc idx => acc.set idx (satAdd (acc.getD idx 0) 1))
    (List.replicate 256 0)

/-- The local `max_length`: `code_lengths.iter().max().unwrap_or(&0)`. -/
def maxLengthOf (code_lengths : List Nat) : Nat :=
  code_lengths.foldl max 0

/-- The loop `for i in 1..=max_length { code = (code + occurances[i - 1])
<< 1; next_code[i] = code }`, run with `occurances[0]` forced to `0`
beforehand, cut off after `steps` iterations (the code runs it to
`max_length`).  The fold state is the pair of the running `code` and the
`next_code` vector. -/
def nextCodeLoop (code_lengths : List Nat) (steps : Nat) : Nat × List Nat :=
  let occurances := (occurancesOf code_lengths).set 0 0
  let max_length := maxLengthOf code_lengths
  List.foldl
    (fun (p : Nat × List Nat) k =>
      let i := k + 1
      let code := ((p.1 + occurances.getD (i - 1) 0) <<< 1) % U32
      (code, p.2.set i code))
    (0, List.replicate (max_length + 1) 0)
    (List.range steps)

/-- The `next_code` vector itself: the loop runs `max_length` times. -/
def nextCodeVecOf (code_lengths : List Nat) : List Nat :=
  (nextCodeLoop code_lengths (maxLengthOf code_lengths)).2

/-- The assignment loop
`for j in 0..code_lengths.len() { let len = code_lengths[j];
if len != 0 { codes[j] = Some(next_code[len]); next_code[len] += 1 } }`,
written as structural recursion over the symbols with the mutable
`next_code` vector threaded through. -/
def assignCodes : List Nat → List Nat → List (Option Nat)
  | [], _ => []
  | len :: rest, next_code =>
    if len ≠ 0 then
      some (next_code.getD len 0) ::
        assignCodes rest (next_code.set len ((next_code.getD len 0 + 1) % U32))
    else
      none :: assignCodes rest next_code

/-- The local `codes` vector of `from_lengths`: the canonical code assigned
to each symbol index, `none` for symbols of length 0. -/
def codesOf (code_lengths : List Nat) : List (Option Nat) :=
  assignCodes code_lengths (nextCodeVecOf code_lengths)

/-- The leaf `Node` built for an assigned `(symbol, code)` pair. -/
def leafNode (code_lengths : List Nat) (symbol code : Nat) : Node :=
  .mk (some symbol) code (Code.fromParts code (code_lengths.getD symbol 0))
    none none

/-- The loop `for (symbol, code) in codes.iter().enumerate()`: collect every
assigned leaf in symbol order (the `leaves` vector) and push it onto
`nodes_left` or `nodes_right` according to the top bit
`code.bit_index(code_lengths[symbol] - 1)`.  The fold state is
`(leaves, nodes_left, nodes_right)`. -/
def partitionStep (code_lengths : List Nat)
    (st : List Node × List Node × List Node) (sc : Nat × Option Nat) :
    List Node × List Node × List Node :=
  match sc.2 with
  | none => st
  | some code =>
    let node := leafNode code_lengths sc.1 code
    let leaves := st.1 ++ [node]
    match bit_index code (code_lengths.getD sc.1 0 - 1) with
    | 0 => (leaves, heap_push st.2.1 node, st.2.2)
    | _ => (leaves, st.2.1, heap_push st.2.2 node)

/-- The partition fold itself, seeded with three empty vectors. -/
def partitionLeaves (code_lengths : List Nat) :
    List Node × List Node × List Node :=
  (codesOf code_lengths).enum.foldl (partitionStep code_lengths) ([], [], [])

/-- The loop body of `collect_from_heap`: while more than one node remains,
pop the two greatest nodes `node_1` and `node_2`, build the branch
`parent` with `left = node_2`, `right = node_1`,
`significance = parent_code = node_1.code.buffer >> 1` and code length
`node_1.code.length - 1` (0 stays 0), and push it back.  The final
`heap.pop().unwrap()` panics on an empty heap, modelled by `none`.
Each iteration shrinks the heap by one, so `fuel = heap.length` dominates
the iteration count. -/
def collectAux : Nat → List Node → Option Node
  | 0, heap => (heap_pop heap).map Prod.fst
  | fuel + 1, heap =>
    if heap.length > 1 then
      match heap_pop heap with
      | none => none
      | some (node_1, h1) =>
        match heap_pop h1 with
        | none => none
        | some (node_2, h2) =>
          let parent_code := node_1.code.buffer >>> 1
          let parent_len :=
            if node_1.code.length ≠ 0 then node_1.code.length - 1 else 0
          let parent : Node :=
            .mk none parent_code (Code.fromParts parent_code parent_len)
              (some node_2) (some node_1)
          collectAux fuel (heap_push h2 parent)
    else (heap_pop heap).map Prod.fst

/-- The function `collect_from_heap` with sufficient fuel. -/
def collect_from_heap (heap : List Node) : Option Node :=
  collectAux heap.length heap

/-- The struct `PrefixTree`. -/
structure PrefixTree where
  root : Node
  leaves : List Node
  current : Node

/-- `PrefixTree::from_lengths`.  The result is `none` exactly when one of the
two `collect_from_heap` calls panics (empty bucket heap); otherwise the root
branch joins the two bucket subtrees and `current` starts at the root. -/
def from_lengths (code_lengths : List Nat) : Option PrefixTree :=
  let p := partitionLeaves code_lengths
  match collect_from_heap p.2.1, collect_from_heap p.2.2 with
  | some l, some r =>
    let root : Node := .mk none 0 Code.new (some l) (some r)
    some { root := root, leaves := p.1, current := root }
  | _, _ => none

/-! ### `PrefixTree::walk` -/

/-- `PrefixTree::walk(direction)`: normalize the direction
(`match { 0 => 0, 1 => 1, _ => 1 }`, wildcard with a dropped diagnostic),
move `current` to the child on that side if it exists; if the child is a
leaf, reset `current` to the root and return its symbol, otherwise stay on
the branch and return no symbol; if the child is missing, leave the state
unchanged.  Rust mutates `self` and returns `Option<usize>`; the embedding
returns the pair. -/
def PrefixTree.walk (self : PrefixTree) (direction : Nat) :
    Option Nat × PrefixTree :=
  let normalized_direction : Nat := if direction = 0 then 0 else 1
  if normalized_direction = 0 then
    match self.current.left with
    | some v =>
      match v.value with
      | some value => (some value, { self with current := self.root })
      | none => (none, { self with current := v })
    | none => (none, self)
  else
    match self.current.right with
    | some v =>
      match v.value with
      | some value => (some value, { self with current := self.root })
      | none => (none, { self with current := v })
    | none => (none, self)

/-- Results of a sequence of `walk` calls, one per direction in `bits`. -/
def walkResults : PrefixTree → List Nat → List (Option Nat)
  | _, [] => []
  | t, d :: ds =>
    let r := t.walk d
    r.1 :: walkResults r.2 ds

/-- Tree state after a sequence of `walk` calls. -/
def walkFinal : PrefixTree → List Nat → PrefixTree
  | t, [] => t
  | t, d :: ds => walkFinal (t.walk d).2 ds

/-- The bits of code `c` of length `len` in most-significant-first order:
bit `len - 1` down to bit `0`. -/
def codeBits (c len : Nat) : List Nat :=
  (List.range len).map fun i => bit_index c (len - 1 - i)

/-- The constant `FIXED_CODE_LENGTHS: [u8; 288]`, copied verbatim from
`prefix.rs`. -/
def FIXED_CODE_LENGTHS : List Nat := [
  8, 8, 8, 8, 8, 8, 8, 8, 8, 8, 8, 8, 8, 8, 8, 8, 8, 8, 8, 8, 8, 8, 8, 8, 8, 8, 8, 8, 8, 8, 8, 8,
  8, 8, 8, 8, 8, 8, 8, 8, 8, 8, 8, 8, 8, 8, 8, 8, 8, 8, 8, 8, 8, 8, 8, 8, 8, 8, 8, 8, 8, 8, 8, 8,
  8, 8, 8, 8, 8, 8, 8, 8, 8, 8, 8, 8, 8, 8, 8, 8, 8, 8, 8, 8, 8, 8, 8, 8, 8, 8, 8, 8, 8, 8, 8, 8,
  8, 8, 8, 8, 8, 8, 8, 8, 8, 8, 8, 8, 8, 8, 8, 8, 8, 8, 8, 8, 8, 8, 8, 8, 8, 8, 8, 8, 8, 8, 8, 8,
  8, 8, 8, 8, 8, 8, 8, 8, 8, 8, 8, 8, 8, 8, 8, 8, 9, 9, 9, 9, 9, 9, 9, 9, 9, 9, 9, 9, 9, 9, 9, 9,
  9, 9, 9, 9, 9, 9, 9, 9, 9, 9, 9, 9, 9, 9, 9, 9, 9, 9, 9, 9, 9, 9, 9, 9, 9, 9, 9, 9, 9, 9, 9, 9,
  9, 9, 9, 9, 9, 9, 9, 9, 9, 9, 9, 9, 9, 9, 9, 9, 9, 9, 9, 9, 9, 9, 9, 9, 9, 9, 9, 9, 9, 9, 9, 9,
  9, 9, 9, 9, 9, 9, 9, 9, 9, 9, 9, 9, 9, 9, 9, 9, 9, 9, 9, 9, 9, 9, 9, 9, 9, 9, 9, 9, 9, 9, 9, 9,
  7, 7, 7, 7, 7, 7, 7, 7, 7, 7, 7, 7, 7, 7, 7, 7, 7, 7, 7, 7, 7, 7, 7, 7, 8, 8, 8, 8, 8, 8, 8, 8]

/-! ### Derived notions used to state the claims -/

/-- The Kraft sum of a code-length table, scaled by `2 ^ maxLengthOf ls`:
the table describes a complete (hence prefix-free and fully resolvable)
canonical assignment exactly when this equals `2 ^ maxLengthOf ls`. -/
def kraftSum (ls : List Nat) : Nat :=
  ((ls.filter fun l => l ≠ 0).map fun l => 2 ^ (maxLengthOf ls - l)).sum

/-- A code-length table forming a valid prefix-free canonical assignment:
some symbol is used, lengths fit the 32-bit `Code` buffer, and the Kraft
equality holds (completeness, which makes the assignment prefix-free and
the decode tree fully resolvable). -/
@[reducible] def ValidTable (ls : List Nat) : Prop :=
  (∃ l ∈ ls, l ≠ 0) ∧ maxLengthOf ls ≤ 32 ∧ kraftSum ls = 2 ^ maxLengthOf ls

/-- The bit string `bits` decodes to symbol `s` on tree `t`: fed one bit per
`walk` call, every call but the last reports no symbol and the last reports
`s`. -/
def decodesTo (t : PrefixTree) (bits : List Nat) (s : Nat) : Prop :=
  bits ≠ [] ∧
    walkResults t bits = List.replicate (bits.length - 1) none ++ [some s]

/-- The tree produced by `from_lengths`, defaulting to a trivial tree when
construction panics (used to name the concrete tree in witnesses). -/
def treeOf (ls : List Nat) : PrefixTree :=
  (from_lengths ls).getD { root := Node.new, leaves := [], current := Node.new }

/-- The code-length table of the unit test `test_prefix` in `prefix.rs`. -/
def testTable : List Nat := [3, 3, 3, 3, 3, 2, 4, 4]

/-- A valid complete table with eight symbols, all of code length 3. -/
def uniformTable : List Nat := [3, 3, 3, 3, 3, 3, 3, 3]

/-! ### Spec-side rendering of the RFC 1951 code assignment (for the
refinement claim about the assignment phase of `from_lengths`).  These
definitions follow the wording of the spec, not the source: a histogram of
nonzero lengths with `occurrences[0]` forced to 0 (counters saturate at the
`u32` maximum), the first code of each length from the recurrence
`code := (code + occurrences[len - 1]) << 1`, and the code of the j-th
symbol of nonzero length `len` given by the first code of `len` plus the
number of earlier symbols of the same length (assign, then increment). -/

/-- Spec wording: `occurrences[len]` = count of symbols of length `len`,
with `occurrences[0]` forced to 0 and `u32` saturation. -/
def occurrencesSpec (ls : List Nat) (len : Nat) : Nat :=
  if len = 0 then 0 else min (ls.count len) (U32 - 1)

/-- Spec wording: the first canonical code of each length, from
`code := 0`, then `code := (code + occurrences[len - 1]) << 1` for `len`
from 1 upward (in `u32` arithmetic). -/
def firstCodeSpec (ls : List Nat) : Nat → Nat
  | 0 => 0
  | i + 1 => ((firstCodeSpec ls i + occurrencesSpec ls i) <<< 1) % U32

/-- Spec wording: symbols are scanned in ascending index order; a symbol of
nonzero length `len` receives the first code of `len` plus the number of
earlier symbols of length `len`; length-0 symbols receive no code. -/
def rfc1951Codes (ls : List Nat) : List (Option Nat) :=
  (List.range ls.length).map fun j =>
    if ls.getD j 0 = 0 then none
    else some ((firstCodeSpec ls (ls.getD j 0) + (ls.take j).count (ls.getD j 0)) % U32)

/-! ### Value provenance predicate (for the claim that `walk` only ever
reports symbols that were assigned a code). -/

/-- Every `Some` value stored anywhere in a node satisfies `P`. -/
inductive AllV (P : Nat → Prop) : Node → Prop where
  | mk : ∀ (v : Option Nat) (s : Nat) (c : Code) (l r : Option Node),
      (∀ x, v = some x → P x) →
      (∀ n, l = some n → AllV P n) →
      (∀ n, r = some n → AllV P n) →
      AllV P (.mk v s c l r)

/-- All nodes of a heap array satisfy `AllV P`. -/
def AllVList (P : Nat → Prop) (a : List Node) : Prop :=
  ∀ n ∈ a, AllV P n

/-! ## Theorems -/

set_option maxRecDepth 4000

/-- C9: the published fixed-code length table has exactly 288 entries;
indices 0 to 143 hold length 8, 144 to 255 hold length 9, 256 to 279 hold
length 7 (in particular the end-of-block symbol 256 has length 7), and 280
to 287 hold length 8. -/
theorem c9_fixed_table_shape :
    FIXED_CODE_LENGTHS.length = 288 ∧
    FIXED_CODE_LENGTHS.getD 256 0 = 7 ∧
    FIXED_CODE_LENGTHS = (List.range 288).map
      (fun i => if i ≤ 143 then 8 else if i ≤ 255 then 9
                else if i ≤ 279 then 7 else 8) :=
  ⟨by decide, by decide, by decide⟩

/-- C8: with the accumulated bits staying within the 32-bit buffer,
`Code::push(b, n)` sets the buffer to `(old_buffer << n) | b` and grows the
length by `n` (earlier bits stay more significant); in particular pushing
bit 1 then bit 0 into an empty code gives buffer `0b10` of length 2, and
then pushing the 8-bit value `0b11110000` gives buffer `0b10_11110000` of
length 10. -/
theorem c8_push_semantics (c : Code) (b n : Nat)
    (hb : c.buffer < 2 ^ c.length) (hv : b < 2 ^ n) (hn : c.length + n ≤ 32) :
    c.push b n = Code.fromParts (c.buffer <<< n ||| b) (c.length + n) ∧
    (Code.new.push_bit 1).push_bit 0 = Code.fromParts 2 2 ∧
    ((Code.new.push_bit 1).push_bit 0).push 240 8 = Code.fromParts 752 10 := by
  refine ⟨?_, by decide, by decide⟩
  have hpow : (2 : Nat) ^ (c.length + n) ≤ 2 ^ 32 :=
    Nat.pow_le_pow_right (by norm_num) hn
  have h1 : c.buffer <<< n < 2 ^ (c.length + n) := by
    rw [Nat.shiftLeft_eq, Nat.pow_add]
    exact Nat.mul_lt_mul_of_lt_of_le hb (Nat.le_refl _) (Nat.pos_pow_of_pos n (by norm_num))
  have h2 : b < 2 ^ (c.length + n) :=
    lt_of_lt_of_le hv (Nat.pow_le_pow_right (by norm_num) (Nat.le_add_left _ _))
  have hor : c.buffer <<< n ||| b < U32 := by
    have := Nat.or_lt_two_pow h1 h2
    calc c.buffer <<< n ||| b < 2 ^ (c.length + n) := this
      _ ≤ 2 ^ 32 := hpow
      _ = U32 := by decide
  have hlen : c.length + n < U8 := by
    have : (32 : Nat) < U8 := by decide
    omega
  simp [Code.push, Code.fromParts, Nat.mod_eq_of_lt hor, Nat.mod_eq_of_lt hlen]

/-- C7: any direction byte other than the literals 0 and 1 is normalized to
1: `push_bit` and `walk` behave exactly as if called with 1, with no
failure. -/
theorem c7_nonbinary_normalization (c : Code) (t : PrefixTree) (b : Nat)
    (h0 : b ≠ 0) (h1 : b ≠ 1) :
    c.push_bit b = c.push_bit 1 ∧ t.walk b = t.walk 1 := by
  constructor
  · simp [Code.push_bit, h0]
  · simp [PrefixTree.walk, h0]

/-- C6: when the cursor node has no child in the normalized requested
direction, `walk` reports no symbol and the entire tree state, cursor
included, is unchanged. -/
theorem c6_missing_child_noop (t : PrefixTree) (d : Nat)
    (h : (if (if d = 0 then 0 else 1) = (0 : Nat)
          then t.current.left else t.current.right) = none) :
    t.walk d = (none, t) := by
  by_cases hd : d = 0
  · have h' : t.current.left = none := by simpa [hd] using h
    simp [PrefixTree.walk, hd, h']
  · have h' : t.current.right = none := by simpa [hd] using h
    simp [PrefixTree.walk, hd, h']

/-- Helper: whenever `walk` reports a symbol, the new cursor is the root,
and the root and leaves fields never change. -/
theorem walk_state_shape (t : PrefixTree) (d : Nat) :
    ((t.walk d).1.isSome → (t.walk d).2.current = t.root) ∧
    (t.walk d).2.root = t.root ∧ (t.walk d).2.leaves = t.leaves := by
  simp only [PrefixTree.walk]
  by_cases hd : d = 0 <;> simp only [hd, reduceIte]
  · cases t.current.left with
    | none => simp
    | some v => cases hv : v.value <;> simp [hv]
  · cases t.current.right with
    | none => simp
    | some v => cases hv : v.value <;> simp [hv]

/-- C5: a tree built by `from_lengths` starts with its cursor at the root,
and every `walk` call that reports a symbol resets the cursor to the root
before returning. -/
theorem c5_cursor_reset :
    (∀ (ls : List Nat) (t : PrefixTree),
      from_lengths ls = some t → t.current = t.root) ∧
    (∀ (t t2 : PrefixTree) (d s : Nat),
      t.walk d = (some s, t2) → t2.current = t.root) := by
  constructor
  · intro ls t h
    simp only [from_lengths] at h
    rcases hL : collect_from_heap (partitionLeaves ls).2.1 with _ | l <;>
      rw [hL] at h
    · simp at h
    · rcases hR : collect_from_heap (partitionLeaves ls).2.2 with _ | r <;>
        rw [hR] at h
      · simp at h
      · simp only [Option.some.injEq] at h
        rw [← h]
  · intro t t2 d s h
    have hs := (walk_state_shape t d).1
    rw [h] at hs
    exact hs (by simp)

/-- Witness for C8 at the concrete code `(0b10, 2)`, pushing the 8-bit value
`0b11110000`. -/
theorem c8_witness :
    (2 : Nat) < 2 ^ 2 ∧ (240 : Nat) < 2 ^ 8 ∧ (2 + 8 : Nat) ≤ 32 ∧
    Code.push ⟨2, 2⟩ 240 8 = Code.fromParts ((2 : Nat) <<< 8 ||| 240) (2 + 8) :=
  ⟨by decide, by decide, by decide,
    (c8_push_semantics ⟨2, 2⟩ 240 8 (by decide) (by decide) (by decide)).1⟩

/-- Witness for C7 at the non-binary direction byte 7. -/
theorem c7_witness :
    (7 : Nat) ≠ 0 ∧ (7 : Nat) ≠ 1 ∧
    Code.push_bit ⟨5, 3⟩ 7 = Code.push_bit ⟨5, 3⟩ 1 ∧
    PrefixTree.walk ⟨Node.new, [], Node.new⟩ 7 =
      PrefixTree.walk ⟨Node.new, [], Node.new⟩ 1 :=
  ⟨by decide, by decide,
    (c7_nonbinary_normalization ⟨5, 3⟩ ⟨Node.new, [], Node.new⟩ 7
      (by decide) (by decide)).1,
    (c7_nonbinary_normalization ⟨5, 3⟩ ⟨Node.new, [], Node.new⟩ 7
      (by decide) (by decide)).2⟩

/-- Witness for C6 on a cursor with no children at all. -/
theorem c6_witness :
    ((if (if (0 : Nat) = 0 then (0 : Nat) else 1) = 0
      then (PrefixTree.mk Node.new [] Node.new).current.left
      else (PrefixTree.mk Node.new [] Node.new).current.right) = none) ∧
    PrefixTree.walk ⟨Node.new, [], Node.new⟩ 0 =
      (none, ⟨Node.new, [], Node.new⟩) :=
  ⟨rfl, c6_missing_child_noop ⟨Node.new, [], Node.new⟩ 0 rfl⟩

/-- Witness for C5 on the tree of the unit-test table: the fresh cursor is
the root, and after the successful decode of symbol 5 (code `00`) the
cursor is back at the root. -/
theorem c5_witness :
    (treeOf testTable).current = (treeOf testTable).root ∧
    ((walkFinal (treeOf testTable) [0]).walk 0).2.current
      = (walkFinal (treeOf testTable) [0]).root :=
  ⟨c5_cursor_reset.1 testTable (treeOf testTable) rfl,
   c5_cursor_reset.2 (walkFinal (treeOf testTable) [0])
     ((walkFinal (treeOf testTable) [0]).walk 0).2 0 5 rfl⟩

/-- C3 counterexample: on the all-zero table `[0]` (no symbol used) and on
the table `[1]` (a single code, so both codes of one bucket and none of the
other), `from_lengths` does not return a tree: the final
`heap.pop().unwrap()` of `collect_from_heap` panics on the empty bucket
heap, modelled by `none`. -/
theorem c3_empty_bucket_panics :
    from_lengths [0] = none ∧ from_lengths [1] = none :=
  ⟨rfl, rfl⟩

/-- Helper: one `walk` result per direction fed. -/
theorem walkResults_length (bits : List Nat) :
    ∀ t : PrefixTree, (walkResults t bits).length = bits.length := by
  induction bits with
  | nil => intro t; rfl
  | cons d ds ih => intro t; simp only [walkResults, List.length_cons, ih]

/-- Helper: `walk` is a deterministic state machine, so the results of a
longer bit sequence extend those of a shorter one. -/
theorem walkResults_append (xs : List Nat) :
    ∀ (t : PrefixTree) (ys : List Nat),
      walkResults t (xs ++ ys) =
        walkResults t xs ++ walkResults (walkFinal t xs) ys := by
  induction xs with
  | nil => intro t ys; rfl
  | cons d ds ih =>
    intro t ys
    simp only [List.cons_append, walkResults, walkFinal, ih, List.append_eq]

/-- C4: on any tree built from a valid table, the bit sequence decoding to
one symbol is never an initial segment of the bit sequence decoding to a
different symbol: `walk` is deterministic, and a decode sequence ends with
the only call that reports a symbol. -/
theorem c4_prefix_freedom (ls : List Nat) (hv : ValidTable ls)
    (t : PrefixTree) (ht : from_lengths ls = some t) (s1 s2 : Nat)
    (hs : s1 ≠ s2) (b1 b2 : List Nat)
    (h1 : decodesTo t b1 s1) (h2 : decodesTo t b2 s2) :
    ¬ ∃ tail, b1 ++ tail = b2 := by
  rintro ⟨tail, rfl⟩
  obtain ⟨hne1, hw1⟩ := h1
  obtain ⟨hne2, hw2⟩ := h2
  have hpos : 0 < b1.length := List.length_pos.2 hne1
  rw [walkResults_append] at hw2
  rcases tail with _ | ⟨d, tail⟩
  · have hz : walkResults (walkFinal t b1) ([] : List Nat) = [] := rfl
    rw [hz, List.append_nil, List.append_nil, hw1] at hw2
    have := List.append_cancel_left hw2
    simp at this
    exact hs this
  · -- compare the result of call `b1.length - 1` on both sides
    have hL : (walkResults t b1 ++
        walkResults (walkFinal t b1) (d :: tail))[b1.length - 1]?
        = some (some s1) := by
      rw [List.getElem?_append_left (by rw [walkResults_length]; omega)]
      rw [hw1]
      rw [List.getElem?_append_right (by simp [List.length_replicate])]
      simp [List.length_replicate]
    have hR : (List.replicate ((b1 ++ d :: tail).length - 1) (none : Option Nat)
        ++ [some s2])[b1.length - 1]? = some none := by
      rw [List.getElem?_append_left (by simp [List.length_replicate]; omega)]
      rw [List.getElem?_replicate]
      simp
      omega
    rw [hw2] at hL
    rw [hL] at hR
    simp at hR

/-- Witness for C4 on the unit-test table: the code `00` of symbol 5 is not
an initial segment of the code `010` of symbol 0. -/
theorem c4_witness :
    ValidTable testTable ∧ (5 : Nat) ≠ 0 ∧
    decodesTo (treeOf testTable) [0, 0] 5 ∧
    decodesTo (treeOf testTable) [0, 1, 0] 0 ∧
    ¬ ∃ tail, [0, 0] ++ tail = [0, 1, 0] :=
  ⟨by decide, by decide, ⟨by decide, by decide⟩, ⟨by decide, by decide⟩,
    c4_prefix_freedom testTable (by decide) (treeOf testTable) rfl 5 0
      (by decide) [0, 0] [0, 1, 0] ⟨by decide, by decide⟩
      ⟨by decide, by decide⟩⟩

/-- Helper: reading a written vector entry. -/
theorem getD_set_nat (a : List Nat) (i j v : Nat) :
    (a.set i v).getD j 0 = if i = j ∧ i < a.length then v else a.getD j 0 := by
  rw [List.getD_eq_getD_get?, List.getD_eq_getD_get?, List.get?_eq_getElem?,
    List.get?_eq_getElem?, List.getElem?_set]
  by_cases hij : i = j
  · subst hij
    by_cases hlen : i < a.length
    · simp [hlen]
    · simp only [hlen, and_false, if_neg, if_false, reduceIte]
      rw [List.getElem?_eq_none (Nat.le_of_not_lt hlen)]
  · simp [hij]

/-- Helper: entries of a constant vector. -/
theorem getD_replicate_nat (n i v : Nat) :
    (List.replicate n v).getD i 0 = if i < n then v else 0 := by
  rw [List.getD_eq_getD_get?, List.get?_eq_getElem?, List.getElem?_replicate]
  by_cases h : i < n <;> simp [h]

/-- Helper: a `foldl max` result dominates its seed. -/
theorem foldl_max_seed (ls : List Nat) :
    ∀ init : Nat, init ≤ ls.foldl max init := by
  induction ls with
  | nil => intro init; exact Nat.le_refl _
  | cons l rest ih =>
    intro init
    exact le_trans (Nat.le_max_left init l) (ih (max init l))

/-- Helper: a `foldl max` result dominates every member. -/
theorem le_foldl_max (ls : List Nat) :
    ∀ init l, l ∈ ls → l ≤ ls.foldl max init := by
  induction ls with
  | nil => intro _ _ h; cases h
  | cons x rest ih =>
    intro init l hl
    rcases List.mem_cons.1 hl with rfl | hl
    · exact le_trans (Nat.le_max_right init l) (foldl_max_seed rest _)
    · exact ih (max init x) l hl

/-- Helper: a `foldl max` stays below a strict bound of seed and members. -/
theorem foldl_max_lt (ls : List Nat) :
    ∀ init b, init < b → (∀ l ∈ ls, l < b) → ls.foldl max init < b := by
  induction ls with
  | nil => intro _ _ h _; exact h
  | cons x rest ih =>
    intro init b hinit hm
    apply ih (max init x) b
    · exact Nat.max_lt.2 ⟨hinit, hm x (List.mem_cons_self x rest)⟩
    · exact fun l hl => hm l (List.mem_cons_of_mem _ hl)

/-- Helper: every table entry is at most `maxLengthOf`. -/
theorem mem_le_maxLengthOf (ls : List Nat) (l : Nat) (hl : l ∈ ls) :
    l ≤ maxLengthOf ls :=
  le_foldl_max ls 0 l hl

/-- Helper: for a table of `u8` lengths the maximum stays below 256. -/
theorem maxLengthOf_lt_256 (ls : List Nat) (h : ∀ l ∈ ls, l < 256) :
    maxLengthOf ls < 256 :=
  foldl_max_lt ls 0 256 (by omega) h

/-- Helper: the histogram fold adds the saturated occurrence count to every
in-range entry of the accumulator. -/
theorem hist_fold (ls : List Nat) :
    ∀ acc : List Nat, acc.length = 256 → (∀ l ∈ ls, l < 256) →
      (∀ i, acc.getD i 0 ≤ U32 - 1) → ∀ i, i < 256 →
      (ls.foldl (fun acc idx => acc.set idx (satAdd (acc.getD idx 0) 1))
          acc).getD i 0
        = min (acc.getD i 0 + ls.count i) (U32 - 1) := by
  induction ls with
  | nil =>
    intro acc _ _ hbound i _
    have := hbound i
    simp only [List.foldl_nil, List.count_nil]
    omega
  | cons l rest ih =>
    intro acc hlen hmem hbound i hi
    simp only [List.foldl_cons]
    rw [ih (acc.set l (satAdd (acc.getD l 0) 1))
      (by rw [List.length_set]; exact hlen)
      (fun x hx => hmem x (List.mem_cons_of_mem _ hx))
      (fun j => by
        rw [getD_set_nat]
        split
        · simp [satAdd]
        · exact hbound j)
      i hi]
    rw [getD_set_nat, List.count_cons]
    have hl256 : l < 256 := hmem l (List.mem_cons_self ..)
    by_cases hli : l = i
    · subst hli
      rw [if_pos ⟨rfl, by omega⟩]
      simp only [beq_self_eq_true, if_pos]
      have := hbound l
      simp [satAdd]
      omega
    · rw [if_neg (by intro hc; exact hli hc.1)]
      have : (l == i) = false := beq_eq_false_iff_ne.2 hli
      simp [this]

/-- Helper: the histogram array keeps length 256. -/
theorem occurancesOf_length (ls : List Nat) :
    (occurancesOf ls).length = 256 := by
  unfold occurancesOf
  generalize hacc : (List.replicate 256 (0 : Nat)) = acc
  have hlen : acc.length = 256 := by rw [← hacc]; simp
  clear hacc
  induction ls generalizing acc with
  | nil => exact hlen
  | cons l rest ih =>
    simp only [List.foldl_cons]
    exact ih _ (by rw [List.length_set]; exact hlen)

/-- Helper: the `occurances` array realizes the saturated histogram. -/
theorem occ_getD (ls : List Nat) (h : ∀ l ∈ ls, l < 256) (i : Nat)
    (hi : i < 256) :
    (occurancesOf ls).getD i 0 = min (ls.count i) (U32 - 1) := by
  unfold occurancesOf
  rw [hist_fold ls (List.replicate 256 0) (by simp) h
    (fun j => by rw [getD_replicate_nat]; split <;> simp [U32]) i hi]
  rw [getD_replicate_nat, if_pos hi, Nat.zero_add]

/-- Helper: entries of the zero-corrected histogram match the spec wording
of `occurrences`. -/
theorem occZ_getD (ls : List Nat) (h : ∀ l ∈ ls, l < 256) (i : Nat)
    (hi : i < 256) :
    ((occurancesOf ls).set 0 0).getD i 0 = occurrencesSpec ls i := by
  rw [getD_set_nat]
  by_cases h0 : i = 0
  · subst h0
    rw [if_pos ⟨rfl, by rw [occurancesOf_length]; omega⟩]
    rfl
  · rw [if_neg (by intro hc; exact h0 hc.1.symm)]
    rw [occ_getD ls h i hi]
    simp only [occurrencesSpec, h0, if_neg, reduceIte]

/-- Helper: unrolling one iteration of the `next_code` loop. -/
theorem nextCodeLoop_succ (ls : List Nat) (k : Nat) :
    nextCodeLoop ls (k + 1) =
      ((((nextCodeLoop ls k).1
          + ((occurancesOf ls).set 0 0).getD k 0) <<< 1) % U32,
        (nextCodeLoop ls k).2.set (k + 1)
          ((((nextCodeLoop ls k).1
            + ((occurancesOf ls).set 0 0).getD k 0) <<< 1) % U32)) := by
  unfold nextCodeLoop
  rw [List.range_succ, List.foldl_append, List.foldl_cons, List.foldl_nil]
  rfl

/-- Helper: invariant of the `next_code` loop: after the first `k`
iterations the running `code` is the spec first code of length `k` and the
vector holds the spec first codes at indices 1 to `k`. -/
theorem nextCode_fold (ls : List Nat) (h : ∀ l ∈ ls, l < 256) :
    ∀ k, k ≤ maxLengthOf ls →
      (nextCodeLoop ls k).1 = firstCodeSpec ls k ∧
      (nextCodeLoop ls k).2.length = maxLengthOf ls + 1 ∧
      ∀ j, (nextCodeLoop ls k).2.getD j 0
        = if 1 ≤ j ∧ j ≤ k then firstCodeSpec ls j else 0 := by
  intro k
  induction k with
  | zero =>
    intro _
    refine ⟨rfl, by simp [nextCodeLoop], fun j => ?_⟩
    show (List.replicate (maxLengthOf ls + 1) 0).getD j 0 = _
    rw [if_neg (by omega : ¬(1 ≤ j ∧ j ≤ 0)), getD_replicate_nat]
    split <;> rfl
  | succ k ih =>
    intro hk
    obtain ⟨ih1, ih2, ih3⟩ := ih (by omega)
    have hocc : ((occurancesOf ls).set 0 0).getD k 0
        = occurrencesSpec ls k :=
      occZ_getD ls h k (by
        have := maxLengthOf_lt_256 ls h
        omega)
    rw [nextCodeLoop_succ]
    refine ⟨?_, ?_, ?_⟩
    · simp only [hocc, ih1]
      rfl
    · simp only [List.length_set, ih2]
    · intro j
      simp only [hocc, ih1]
      rw [getD_set_nat, ih2]
      by_cases hj : k + 1 = j
      · subst hj
        rw [if_pos ⟨rfl, by omega⟩, if_pos (by omega)]
        rfl
      · rw [if_neg (by intro hc; exact hj hc.1), ih3 j]
        by_cases hj1 : 1 ≤ j ∧ j ≤ k
        · rw [if_pos hj1, if_pos (by omega)]
        · rw [if_neg hj1, if_neg (by omega)]

/-- Helper: length of the `next_code` vector. -/
theorem nextCodeVecOf_length (ls : List Nat) (h : ∀ l ∈ ls, l < 256) :
    (nextCodeVecOf ls).length = maxLengthOf ls + 1 := by
  unfold nextCodeVecOf
  exact (nextCode_fold ls h (maxLengthOf ls) (Nat.le_refl _)).2.1

/-- Helper: entries of the `next_code` vector are the spec first codes. -/
theorem nextCodeVecOf_getD (ls : List Nat) (h : ∀ l ∈ ls, l < 256) (j : Nat) :
    (nextCodeVecOf ls).getD j 0
      = if 1 ≤ j ∧ j ≤ maxLengthOf ls then firstCodeSpec ls j else 0 := by
  unfold nextCodeVecOf
  exact (nextCode_fold ls h (maxLengthOf ls) (Nat.le_refl _)).2.2 j

/-- Helper: spec first codes are reduced `u32` values. -/
theorem firstCodeSpec_lt (ls : List Nat) (i : Nat) :
    firstCodeSpec ls i < U32 := by
  cases i with
  | zero => simp [firstCodeSpec, U32]
  | succ k =>
    simp only [firstCodeSpec]
    exact Nat.mod_lt _ (by simp [U32])

/-- Helper: the assignment loop produces one entry per symbol. -/
theorem assignCodes_length :
    ∀ (rest nc : List Nat), (assignCodes rest nc).length = rest.length := by
  intro rest
  induction rest with
  | nil => intro nc; rfl
  | cons len rest ih =>
    intro nc
    by_cases h0 : len = 0 <;> simp [assignCodes, h0, ih]

/-- Helper: invariant of the assignment loop.  With `done` the already
scanned symbols and `nc` holding, for every usable length, the spec first
code advanced by the `done`-count of that length, the remaining loop
assigns the j-th pending symbol of nonzero length `len` the spec first
code of `len` advanced by the count of `len` among all earlier symbols. -/
theorem assign_fold (ls : List Nat) :
    ∀ (rest done nc : List Nat),
      ls = done ++ rest →
      nc.length = maxLengthOf ls + 1 →
      (∀ len, len ≠ 0 → len ≤ maxLengthOf ls →
        nc.getD len 0 = (firstCodeSpec ls len + done.count len) % U32) →
      ∀ k, (assignCodes rest nc)[k]? = (rest[k]?).map fun len =>
        if len = 0 then (none : Option Nat)
        else some ((firstCodeSpec ls len
          + (done ++ rest.take k).count len) % U32) := by
  intro rest
  induction rest with
  | nil =>
    intro done nc _ _ _ k
    simp [assignCodes]
  | cons len rest ih =>
    intro done nc hfull hlen hnc k
    have hmem : len ∈ ls := by
      rw [hfull]; exact List.mem_append_right _ (List.mem_cons_self ..)
    have hle : len ≤ maxLengthOf ls := mem_le_maxLengthOf ls len hmem
    have hfull' : ls = (done ++ [len]) ++ rest := by
      rw [List.append_assoc, List.singleton_append]
      exact hfull
    by_cases h0 : len = 0
    · -- length-0 symbol: no code, `next_code` untouched
      subst h0
      simp only [assignCodes, ne_eq, not_true_eq_false, reduceIte]
      cases k with
      | zero => simp
      | succ k =>
        have hnc' : ∀ len', len' ≠ 0 → len' ≤ maxLengthOf ls →
            nc.getD len' 0
              = (firstCodeSpec ls len' + (done ++ [0]).count len') % U32 := by
          intro len' h0' hle'
          rw [List.count_append, hnc len' h0' hle']
          have hz : List.count len' [0] = 0 := by
            simp [List.count_singleton', beq_iff_eq]
            omega
          rw [hz, Nat.add_zero]
        rw [List.getElem?_cons_succ,
          ih (done ++ [0]) nc hfull' hlen hnc' k]
        simp only [List.getElem?_cons_succ, List.take_succ_cons,
          List.append_assoc, List.singleton_append]
    · -- usable symbol: assign the current first code, then bump it
      simp only [assignCodes, ne_eq, h0, not_false_eq_true, reduceIte]
      cases k with
      | zero =>
        simp only [List.getElem?_cons_zero, List.take_zero, List.append_nil]
        rw [hnc len h0 hle]
        simp [h0]
      | succ k =>
        have hsetlen : (nc.set len ((nc.getD len 0 + 1) % U32)).length
            = maxLengthOf ls + 1 := by rw [List.length_set, hlen]
        have hnc' : ∀ len', len' ≠ 0 → len' ≤ maxLengthOf ls →
            (nc.set len ((nc.getD len 0 + 1) % U32)).getD len' 0
              = (firstCodeSpec ls len' + (done ++ [len]).count len') % U32 := by
          intro len' h0' hle'
          rw [getD_set_nat, List.count_append]
          by_cases heq : len = len'
          · subst heq
            rw [if_pos ⟨rfl, by omega⟩, hnc len h0 hle, Nat.mod_add_mod]
            have hone : List.count len [len] = 1 := by simp
            rw [hone, ← Nat.add_assoc]
          · rw [if_neg (by intro hc; exact heq hc.1), hnc len' h0' hle']
            have hz : List.count len' [len] = 0 := by
              simp [List.count_singleton', beq_iff_eq]
              omega
            rw [hz, Nat.add_zero]
        rw [List.getElem?_cons_succ,
          ih (done ++ [len]) (nc.set len ((nc.getD len 0 + 1) % U32))
            hfull' hsetlen hnc' k]
        simp only [List.getElem?_cons_succ, List.take_succ_cons,
          List.append_assoc, List.singleton_append]

/-- C2: the code-assignment phase of `from_lengths` realizes the RFC 1951
canonical algorithm as the spec words it: saturated histogram of nonzero
lengths with `occurrences[0]` forced to 0, first codes from
`code := (code + occurrences[len - 1]) << 1`, and symbols scanned in
ascending index order, each nonzero-length symbol taking the current first
code of its length which is then incremented (all in `u32` arithmetic; the
table entries are `u8` values, hence below 256). -/
theorem c2_canonical_assignment (ls : List Nat) (h : ∀ l ∈ ls, l < 256) :
    codesOf ls = rfc1951Codes ls := by
  apply List.ext_getElem?
  intro k
  have hnc0 : ∀ len, len ≠ 0 → len ≤ maxLengthOf ls →
      (nextCodeVecOf ls).getD len 0
        = (firstCodeSpec ls len + List.count len ([] : List Nat)) % U32 := by
    intro len h0 hle
    rw [nextCodeVecOf_getD ls h len, if_pos ⟨by omega, hle⟩,
      List.count_nil, Nat.add_zero,
      Nat.mod_eq_of_lt (firstCodeSpec_lt ls len)]
  have hL := assign_fold ls ls [] (nextCodeVecOf ls) rfl
    (nextCodeVecOf_length ls h) hnc0 k
  unfold codesOf
  rw [hL]
  unfold rfc1951Codes
  rw [List.getElem?_map]
  by_cases hk : k < ls.length
  · rw [List.getElem?_range hk]
    have hget : ls[k]? = some (ls.getD k 0) := by
      rw [List.getD_eq_getD_get?, List.get?_eq_getElem?,
        List.getElem?_eq_getElem hk]
      rfl
    rw [hget]
    simp
  · rw [List.getElem?_eq_none (l := List.range ls.length)
      (by rw [List.length_range]; omega)]
    rw [List.getElem?_eq_none (l := ls) (by omega)]
    rfl

/-- Witness for C2 on the unit-test table. -/
theorem c2_witness :
    (∀ l ∈ testTable, l < 256) ∧ codesOf testTable = rfc1951Codes testTable :=
  ⟨by decide, c2_canonical_assignment testTable (by decide)⟩

/-- Helper: swapping preserves the array length. -/
theorem swapN_length (a : List Node) (i j : Nat) :
    (swapN a i j).length = a.length := by
  simp [swapN]

/-- Helper: `sift_up` preserves the array length. -/
theorem siftUpAux_length :
    ∀ (fuel : Nat) (a : List Node) (start pos : Nat),
      (siftUpAux fuel a start pos).length = a.length := by
  intro fuel
  induction fuel with
  | zero => intro a start pos; rfl
  | succ fuel ih =>
    intro a start pos
    simp only [siftUpAux]
    split
    · rfl
    · split
      · rfl
      · rw [ih, swapN_length]

/-- Helper: the descent of `sift_down_to_bottom` preserves the length. -/
theorem siftDownAux_length :
    ∀ (fuel : Nat) (a : List Node) (pos : Nat),
      (siftDownAux fuel a pos).1.length = a.length := by
  intro fuel
  induction fuel with
  | zero => intro a pos; rfl
  | succ fuel ih =>
    intro a pos
    simp only [siftDownAux]
    split
    · rw [ih, swapN_length]
    · rfl

/-- Helper: `sift_down_to_bottom` preserves the length. -/
theorem sift_down_to_bottom_length (a : List Node) (pos : Nat) :
    (sift_down_to_bottom a pos).length = a.length := by
  simp only [sift_down_to_bottom]
  split
  · rw [sift_up, siftUpAux_length, swapN_length, siftDownAux_length]
  · rw [sift_up, siftUpAux_length, siftDownAux_length]

/-- Helper: `heap_push` grows the array by one element. -/
theorem heap_push_length (a : List Node) (x : Node) :
    (heap_push a x).length = a.length + 1 := by
  simp [heap_push, sift_up, siftUpAux_length]

/-- Helper: popping a nonempty heap succeeds and shrinks it by one. -/
theorem heap_pop_of_ne_nil (a : List Node) (ha : a ≠ []) :
    ∃ x h, heap_pop a = some (x, h) ∧ h.length = a.length - 1 := by
  rcases hl : a.getLast? with _ | last
  · rw [List.getLast?_eq_none_iff] at hl
    exact absurd hl ha
  · by_cases he : a.dropLast.isEmpty
    · refine ⟨last, [], ?_, ?_⟩
      · simp only [heap_pop, hl, he, if_pos]
      · rw [List.isEmpty_iff] at he
        have : a.dropLast.length = 0 := by rw [he]; rfl
        rw [List.length_dropLast] at this
        simp
        omega
    · refine ⟨getN a.dropLast 0,
        sift_down_to_bottom (a.dropLast.set 0 last) 0, ?_, ?_⟩
      · simp only [heap_pop, hl, he]
        rfl
      · rw [sift_down_to_bottom_length, List.length_set, List.length_dropLast]

/-- Helper: the `collect_from_heap` loop succeeds on any nonempty heap of
length at most `fuel + 1`. -/
theorem collectAux_isSome :
    ∀ (fuel : Nat) (a : List Node), a ≠ [] → a.length ≤ fuel + 1 →
      (collectAux fuel a).isSome = true := by
  intro fuel
  induction fuel with
  | zero =>
    intro a ha _
    obtain ⟨x, h, hx, _⟩ := heap_pop_of_ne_nil a ha
    simp only [collectAux, hx]
    rfl
  | succ fuel ih =>
    intro a ha hlen
    simp only [collectAux]
    by_cases hgt : a.length > 1
    · rw [if_pos hgt]
      obtain ⟨x1, h1, hx1, hlen1⟩ := heap_pop_of_ne_nil a ha
      simp only [hx1]
      have h1ne : h1 ≠ [] := by
        rw [← List.length_pos]
        omega
      obtain ⟨x2, h2, hx2, hlen2⟩ := heap_pop_of_ne_nil h1 h1ne
      simp only [hx2]
      apply ih
      · rw [← List.length_pos, heap_push_length]
        omega
      · rw [heap_push_length]
        omega
    · rw [if_neg hgt]
      obtain ⟨x, h, hx, _⟩ := heap_pop_of_ne_nil a ha
      rw [hx]
      rfl

/-- Helper: `collect_from_heap` returns a node exactly on nonempty heaps;
on an empty bucket heap the Rust code panics. -/
theorem collect_from_heap_isSome (a : List Node) :
    (collect_from_heap a).isSome = true ↔ a ≠ [] := by
  constructor
  · intro h hnil
    rw [hnil] at h
    simp [collect_from_heap, collectAux, heap_pop] at h
  · intro ha
    exact collectAux_isSome a.length a ha (by omega)

/-- C3 amended: `walk` never panics (it is a total function in the model),
but `from_lengths` returns a tree exactly when each of the two top-bit
buckets holds at least one leaf; otherwise the final
`heap.pop().unwrap()` of `collect_from_heap` panics on the empty bucket
heap (modelled by `none`), as on an all-zero table or one whose codes all
share the same top bit. -/
theorem c3_no_panic_amended (ls : List Nat) :
    (from_lengths ls).isSome = true ↔
      ((partitionLeaves ls).2.1 ≠ [] ∧ (partitionLeaves ls).2.2 ≠ []) := by
  constructor
  · intro h
    simp only [from_lengths] at h
    rcases hL : collect_from_heap (partitionLeaves ls).2.1 with _ | l <;>
      rw [hL] at h
    · simp at h
    · rcases hR : collect_from_heap (partitionLeaves ls).2.2 with _ | r <;>
        rw [hR] at h
      · simp at h
      · constructor
        · rw [← collect_from_heap_isSome, hL]; rfl
        · rw [← collect_from_heap_isSome, hR]; rfl
  · rintro ⟨h1, h2⟩
    have hL := (collect_from_heap_isSome _).2 h1
    have hR := (collect_from_heap_isSome _).2 h2
    rw [Option.isSome_iff_exists] at hL hR
    obtain ⟨l, hL⟩ := hL
    obtain ⟨r, hR⟩ := hR
    simp only [from_lengths, hL, hR]
    rfl

/-- Witness for C3 amended: on the table `[1, 1]` both buckets are
nonempty and construction returns a tree. -/
theorem c3_amended_witness :
    ((partitionLeaves [1, 1]).2.1 ≠ [] ∧ (partitionLeaves [1, 1]).2.2 ≠ []) ∧
    (from_lengths [1, 1]).isSome = true :=
  ⟨⟨List.length_pos.1 (by decide), List.length_pos.1 (by decide)⟩,
    (c3_no_panic_amended [1, 1]).2
      ⟨List.length_pos.1 (by decide), List.length_pos.1 (by decide)⟩⟩

/-- C1, evaluated at a failing input: the table of eight symbols of length 3
is a valid complete canonical assignment and assigns symbol 0 the canonical
code 0 of length 3, yet walking the tree with the bits 0,0,0 of that code
returns no symbol on the final call (the construction mispairs nodes whose
significances tie), instead of `Some 0` as the round-trip property states. -/
theorem c1_uniform_roundtrip_fails :
    ValidTable uniformTable ∧
    codesOf uniformTable =
      [some 0, some 1, some 2, some 3, some 4, some 5, some 6, some 7] ∧
    codeBits 0 3 = [0, 0, 0] ∧
    (from_lengths uniformTable).map (fun t => walkResults t (codeBits 0 3)) =
      some [none, none, none] :=
  ⟨by decide, by decide, by decide, by decide⟩

/-! ### Value provenance through construction and traversal (C10) -/

/-- Helper: the default node carries no values. -/
theorem AllV_new (P : Nat → Prop) : AllV P Node.new :=
  .mk none 0 Code.new none none (fun x h => by cases h)
    (fun n h => by cases h) (fun n h => by cases h)

/-- Helper: inversion of `AllV` at the stored value. -/
theorem AllV_value {P : Nat → Prop} {n : Node} (h : AllV P n) :
    ∀ x, n.value = some x → P x := by
  cases h with
  | mk v s c l r hv hl hr => exact hv

/-- Helper: inversion of `AllV` at the left child. -/
theorem AllV_left {P : Nat → Prop} {n : Node} (h : AllV P n) :
    ∀ m, n.left = some m → AllV P m := by
  cases h with
  | mk v s c l r hv hl hr => exact hl

/-- Helper: inversion of `AllV` at the right child. -/
theorem AllV_right {P : Nat → Prop} {n : Node} (h : AllV P n) :
    ∀ m, n.right = some m → AllV P m := by
  cases h with
  | mk v s c l r hv hl hr => exact hr

/-- Helper: array reads deliver nodes respecting the predicate. -/
theorem getN_allV {P : Nat → Prop} {a : List Node} (h : AllVList P a)
    (i : Nat) : AllV P (getN a i) := by
  unfold getN
  rw [List.getD_eq_getD_get?, List.get?_eq_getElem?]
  rcases hg : a[i]? with _ | n
  · exact AllV_new P
  · exact h n (List.getElem?_mem hg)

/-- Helper: writing a respected node respects the predicate. -/
theorem set_allV {P : Nat → Prop} {a : List Node} (h : AllVList P a)
    {x : Node} (hx : AllV P x) (i : Nat) : AllVList P (a.set i x) := by
  intro n hn
  rcases List.mem_or_eq_of_mem_set hn with hmem | rfl
  · exact h n hmem
  · exact hx

/-- Helper: swaps respect the predicate. -/
theorem swapN_allV {P : Nat → Prop} {a : List Node} (h : AllVList P a)
    (i j : Nat) : AllVList P (swapN a i j) :=
  set_allV (set_allV h (getN_allV h j) i)
    (getN_allV h i) j

/-- Helper: `sift_up` respects the predicate. -/
theorem siftUpAux_allV {P : Nat → Prop} :
    ∀ (fuel : Nat) (a : List Node) (start pos : Nat), AllVList P a →
      AllVList P (siftUpAux fuel a start pos) := by
  intro fuel
  induction fuel with
  | zero => intro a _ _ h; exact h
  | succ fuel ih =>
    intro a start pos h
    simp only [siftUpAux]
    split
    · exact h
    · split
      · exact h
      · exact ih _ _ _ (swapN_allV h _ _)

/-- Helper: the descent of `sift_down_to_bottom` respects the predicate. -/
theorem siftDownAux_allV {P : Nat → Prop} :
    ∀ (fuel : Nat) (a : List Node) (pos : Nat), AllVList P a →
      AllVList P (siftDownAux fuel a pos).1 := by
  intro fuel
  induction fuel with
  | zero => intro a _ h; exact h
  | succ fuel ih =>
    intro a pos h
    simp only [siftDownAux]
    split
    · exact ih _ _ (swapN_allV h _ _)
    · exact h

/-- Helper: `sift_down_to_bottom` respects the predicate. -/
theorem sift_down_to_bottom_allV {P : Nat → Prop} {a : List Node}
    (h : AllVList P a) (pos : Nat) :
    AllVList P (sift_down_to_bottom a pos) := by
  simp only [sift_down_to_bottom]
  split
  · exact siftUpAux_allV _ _ _ _ (swapN_allV (siftDownAux_allV _ _ _ h) _ _)
  · exact siftUpAux_allV _ _ _ _ (siftDownAux_allV _ _ _ h)

/-- Helper: `heap_push` of a respected node respects the predicate. -/
theorem heap_push_allV {P : Nat → Prop} {a : List Node} (h : AllVList P a)
    {x : Node} (hx : AllV P x) : AllVList P (heap_push a x) := by
  apply siftUpAux_allV
  intro n hn
  rcases List.mem_append.1 hn with hmem | hmem
  · exact h n hmem
  · rw [List.mem_singleton.1 hmem]
    exact hx

/-- Helper: `heap_pop` yields a respected node and heap. -/
theorem heap_pop_allV {P : Nat → Prop} {a : List Node} (ha : AllVList P a)
    {x : Node} {h2 : List Node} (hp : heap_pop a = some (x, h2)) :
    AllV P x ∧ AllVList P h2 := by
  unfold heap_pop at hp
  rcases hl : a.getLast? with _ | last <;> simp only [hl] at hp
  · cases hp
  · have hlast : AllV P last := ha last (List.mem_of_getLast?_eq_some hl)
    have hdrop : AllVList P a.dropLast :=
      fun n hn => ha n ((List.dropLast_sublist a).subset hn)
    by_cases he : a.dropLast.isEmpty = true <;>
      simp only [he, Bool.false_eq_true, reduceIte, eq_self_iff_true,
        if_true, if_false, Option.some.injEq, Prod.mk.injEq] at hp
    · obtain ⟨rfl, rfl⟩ := hp
      exact ⟨hlast, fun n hn => by cases hn⟩
    · obtain ⟨rfl, rfl⟩ := hp
      exact ⟨getN_allV hdrop 0,
        sift_down_to_bottom_allV (set_allV hdrop hlast 0) 0⟩

/-- Helper: the merge loop only produces nodes built from respected nodes:
popped leaves keep their values, created branch parents carry no value. -/
theorem collectAux_allV {P : Nat → Prop} :
    ∀ (fuel : Nat) (a : List Node), AllVList P a →
      ∀ n, collectAux fuel a = some n → AllV P n := by
  intro fuel
  induction fuel with
  | zero =>
    intro a ha n h
    simp only [collectAux] at h
    rcases hp : heap_pop a with _ | ⟨x, h2⟩ <;> rw [hp] at h
    · cases h
    · simp only [Option.map_some', Option.some.injEq] at h
      rw [← h]
      exact (heap_pop_allV ha hp).1
  | succ fuel ih =>
    intro a ha n h
    simp only [collectAux] at h
    by_cases hgt : a.length > 1 <;> simp only [hgt, reduceIte] at h
    · rcases hp1 : heap_pop a with _ | ⟨node_1, h1⟩ <;> simp only [hp1] at h
      · cases h
      · obtain ⟨hn1, hh1⟩ := heap_pop_allV ha hp1
        rcases hp2 : heap_pop h1 with _ | ⟨node_2, hh⟩ <;>
          simp only [hp2] at h
        · cases h
        · obtain ⟨hn2, hhh⟩ := heap_pop_allV hh1 hp2
          refine ih _ (heap_push_allV hhh ?_) n h
          exact .mk none _ _ (some node_2) (some node_1)
            (fun x hx => by cases hx)
            (fun m hm => by injection hm with hme; rw [← hme]; exact hn2)
            (fun m hm => by injection hm with hme; rw [← hme]; exact hn1)
    · rcases hp : heap_pop a with _ | ⟨x, h2⟩ <;> rw [hp] at h
      · cases h
      · simp only [Option.map_some', Option.some.injEq] at h
        rw [← h]
        exact (heap_pop_allV ha hp).1

/-- Helper: a symbol assigned a code has a nonzero in-range length. -/
theorem assignCodes_some :
    ∀ (rest nc : List Nat) (j c : Nat),
      (assignCodes rest nc)[j]? = some (some c) →
      j < rest.length ∧ rest.getD j 0 ≠ 0 := by
  intro rest
  induction rest with
  | nil => intro nc j c h; cases h
  | cons len rest ih =>
    intro nc j c h
    by_cases h0 : len = 0
    · subst h0
      simp only [assignCodes, ne_eq, not_true_eq_false, reduceIte] at h
      cases j with
      | zero =>
        rw [List.getElem?_cons_zero] at h
        injection h with he
        cases he
      | succ j =>
        rw [List.getElem?_cons_succ] at h
        obtain ⟨hj, hne⟩ := ih nc j c h
        refine ⟨by simpa using Nat.succ_lt_succ hj, by simpa using hne⟩
    · simp only [assignCodes, ne_eq, h0, not_false_eq_true, reduceIte] at h
      cases j with
      | zero => exact ⟨Nat.succ_pos _, by simpa using h0⟩
      | succ j =>
        rw [List.getElem?_cons_succ] at h
        obtain ⟨hj, hne⟩ := ih _ j c h
        refine ⟨by simpa using Nat.succ_lt_succ hj, by simpa using hne⟩

/-- Helper: one partition step preserves predicate respect of all three
state components, as a pushed leaf carries an assigned symbol. -/
theorem partitionStep_allV (ls : List Nat) (P : Nat → Prop)
    (st : List Node × List Node × List Node) (sc : Nat × Option Nat)
    (hp : ∀ c, sc.2 = some c → P sc.1)
    (h1 : AllVList P st.1) (h2 : AllVList P st.2.1)
    (h3 : AllVList P st.2.2) :
    AllVList P (partitionStep ls st sc).1 ∧
    AllVList P (partitionStep ls st sc).2.1 ∧
    AllVList P (partitionStep ls st sc).2.2 := by
  rcases sc with ⟨j, _ | code⟩
  · exact ⟨h1, h2, h3⟩
  · have hleaf : AllV P (leafNode ls j code) :=
      .mk (some j) code (Code.fromParts code (ls.getD j 0)) none none
        (fun x hx => by
          injection hx with hxe
          rw [← hxe]
          exact hp code rfl)
        (fun m hm => by cases hm) (fun m hm => by cases hm)
    have hleaves : AllVList P (st.1 ++ [leafNode ls j code]) := by
      intro n hn
      rcases List.mem_append.1 hn with hm | hm
      · exact h1 n hm
      · rw [List.mem_singleton.1 hm]
        exact hleaf
    simp only [partitionStep]
    split
    · exact ⟨hleaves, heap_push_allV h2 hleaf, h3⟩
    · exact ⟨hleaves, h2, heap_push_allV h3 hleaf⟩

/-- Helper: the partition fold preserves predicate respect of all three
state components. -/
theorem partitionFold_allV (ls : List Nat) (P : Nat → Prop) :
    ∀ (pairs : List (Nat × Option Nat)),
      (∀ j c, (j, some c) ∈ pairs → P j) →
      ∀ (st : List Node × List Node × List Node),
        AllVList P st.1 → AllVList P st.2.1 → AllVList P st.2.2 →
        AllVList P (pairs.foldl (partitionStep ls) st).1 ∧
        AllVList P (pairs.foldl (partitionStep ls) st).2.1 ∧
        AllVList P (pairs.foldl (partitionStep ls) st).2.2 := by
  intro pairs
  induction pairs with
  | nil => intro _ st h1 h2 h3; exact ⟨h1, h2, h3⟩
  | cons sc pairs ih =>
    intro hp st h1 h2 h3
    rw [List.foldl_cons]
    have hsc : ∀ c, sc.2 = some c → P sc.1 := by
      intro c hc
      apply hp sc.1 c
      rw [← hc, Prod.mk.eta]
      exact List.mem_cons_self ..
    obtain ⟨g1, g2, g3⟩ := partitionStep_allV ls P st sc hsc h1 h2 h3
    exact ih (fun j c hm => hp j c (List.mem_cons_of_mem _ hm)) _ g1 g2 g3

/-- Helper: a `walk` step only reports respected values and keeps the root
and the cursor respected. -/
theorem walk_allV {P : Nat → Prop} (t : PrefixTree) (d : Nat)
    (hroot : AllV P t.root) (hcur : AllV P t.current) :
    (∀ s, (t.walk d).1 = some s → P s) ∧
    AllV P (t.walk d).2.root ∧ AllV P (t.walk d).2.current := by
  simp only [PrefixTree.walk]
  by_cases hd : d = 0 <;> simp only [hd, reduceIte]
  · rcases hcl : t.current.left with _ | v
    · exact ⟨(fun s hs => by cases hs), hroot, hcur⟩
    · have hv : AllV P v := AllV_left hcur v hcl
      dsimp only
      rcases hval : v.value with _ | value
      · exact ⟨(fun s hs => by cases hs), hroot, hv⟩
      · refine ⟨(fun s hs => ?_), hroot, hroot⟩
        injection hs with he
        rw [← he]
        exact AllV_value hv value hval
  · rcases hcr : t.current.right with _ | v
    · exact ⟨(fun s hs => by cases hs), hroot, hcur⟩
    · have hv : AllV P v := AllV_right hcur v hcr
      dsimp only
      rcases hval : v.value with _ | value
      · exact ⟨(fun s hs => by cases hs), hroot, hv⟩
      · refine ⟨(fun s hs => ?_), hroot, hroot⟩
        injection hs with he
        rw [← he]
        exact AllV_value hv value hval

/-- Helper: along any walk sequence from a tree whose root and cursor are
respected, every reported symbol is respected. -/
theorem walkResults_allV {P : Nat → Prop} :
    ∀ (bits : List Nat) (t : PrefixTree), AllV P t.root →
      AllV P t.current → ∀ s, some s ∈ walkResults t bits → P s := by
  intro bits
  induction bits with
  | nil => intro t _ _ s h; cases h
  | cons d ds ih =>
    intro t hroot hcur s h
    simp only [walkResults] at h
    rcases List.mem_cons.1 h with he | hm
    · exact (walk_allV t d hroot hcur).1 s he.symm
    · exact ih _ (walk_allV t d hroot hcur).2.1
        (walk_allV t d hroot hcur).2.2 s hm

/-- Helper: the root and cursor of a tree built by `from_lengths` respect
the predicate of being an assigned symbol of the input table. -/
theorem from_lengths_allV (ls : List Nat) (t : PrefixTree)
    (ht : from_lengths ls = some t) :
    AllV (fun s => s < ls.length ∧ ls.getD s 0 ≠ 0) t.root ∧
    AllV (fun s => s < ls.length ∧ ls.getD s 0 ≠ 0) t.current := by
  have hpairs : ∀ j c, (j, some c) ∈ (codesOf ls).enum →
      j < ls.length ∧ ls.getD j 0 ≠ 0 := by
    intro j c hm
    obtain ⟨i, hi⟩ := List.mem_iff_getElem?.1 hm
    rw [List.enum, List.getElem?_enumFrom] at hi
    rcases hg : (codesOf ls)[i]? with _ | oc <;> rw [hg] at hi
    · cases hi
    · simp only [Option.map_some', Option.some.injEq] at hi
      have h1 : 0 + i = j := congrArg Prod.fst hi
      have h2 : oc = some c := congrArg Prod.snd hi
      rw [h2] at hg
      rw [Nat.zero_add] at h1
      rw [h1] at hg
      exact assignCodes_some ls (nextCodeVecOf ls) j c hg
  have hmain := partitionFold_allV ls _ (codesOf ls).enum hpairs
    ([], [], []) (fun n hn => by cases hn) (fun n hn => by cases hn)
    (fun n hn => by cases hn)
  simp only [from_lengths] at ht
  rcases hL : collect_from_heap (partitionLeaves ls).2.1 with _ | l <;>
    rw [hL] at ht
  · cases ht
  · rcases hR : collect_from_heap (partitionLeaves ls).2.2 with _ | r <;>
      rw [hR] at ht
    · cases ht
    · unfold collect_from_heap at hL hR
      have hl := collectAux_allV _ _ hmain.2.1 l hL
      have hr := collectAux_allV _ _ hmain.2.2 r hR
      have hnode : AllV (fun s => s < ls.length ∧ ls.getD s 0 ≠ 0)
          (Node.mk none 0 Code.new (some l) (some r)) :=
        .mk none 0 Code.new (some l) (some r) (fun x hx => by cases hx)
          (fun m hm => by injection hm with hme; rw [← hme]; exact hl)
          (fun m hm => by injection hm with hme; rw [← hme]; exact hr)
      injection ht with hte
      rw [← hte]
      exact ⟨hnode, hnode⟩

/-- C10: any symbol ever reported by `walk` on a tree built by
`from_lengths` is an in-range symbol index whose code length in the input
table was nonzero: length-0 symbols are never decoded. -/
theorem c10_decoded_symbols_assigned (ls : List Nat) (t : PrefixTree)
    (ht : from_lengths ls = some t) (bits : List Nat) (s : Nat)
    (hmem : some s ∈ walkResults t bits) :
    s < ls.length ∧ ls.getD s 0 ≠ 0 := by
  obtain ⟨hroot, hcur⟩ := from_lengths_allV ls t ht
  exact walkResults_allV bits t hroot hcur s hmem

/-- Witness for C10: on the unit-test table the walk over `0,0` reports
symbol 5, which indeed has the nonzero length 2 at index 5. -/
theorem c10_witness :
    from_lengths testTable = some (treeOf testTable) ∧
    some 5 ∈ walkResults (treeOf testTable) [0, 0] ∧
    (5 < testTable.length ∧ testTable.getD 5 0 ≠ 0) :=
  ⟨rfl, by decide,
    c10_decoded_symbols_assigned testTable (treeOf testTable) rfl [0, 0] 5
      (by decide)⟩

end Gzip
